import Mathlib

/-!
Verification of the vector-indexed search subsystem of the
github_vector_cli application (files `github_vector_cli/chroma.py` and
`github_vector_cli/cli.py`).

The ChromaDB collection is modelled as a list of records; the external
capabilities (the sentence-transformer embedding model, the md5 digest and
the store's internal distance metric) are parameters of the definitions:

* `md5hex : String → String` stands for `hashlib.md5(...).hexdigest()`;
* `encode : String → Option Embedding` stands for
  `SentenceTransformer.encode` (with `none` modelling a raised exception);
* `dist : Embedding → Embedding → ℚ` stands for the collection's
  cosine-distance computation.

Floats are modelled as rationals.  Fallible Python code (a raised
exception) is modelled with `Option`/`Except`.
-/

namespace GHVC

/-- An embedding vector, as produced by the embedding model. -/
abbrev Embedding := List ℚ

/-- One record of the ChromaDB collection: id, embedding, the metadata
written by `store_repository` (`{"repo": repo_name, "path": path}`) and the
raw document text. -/
structure Record where
  id : String
  embedding : Embedding
  repo : String
  path : String
  content : String
deriving DecidableEq, Repr

/-- The state of the ChromaDB collection `github_repos`. -/
abbrev Store := List Record

/-- One formatted search hit, as built by `VectorDBManager._format_results`. -/
structure SearchResult where
  id : String
  repo : String
  path : String
  content : String
  distance : ℚ
deriving DecidableEq, Repr

/-- `VectorDBManager._generate_doc_id`: the md5 hex digest of
`f"{repo_name}_{path}"`. -/
def generate_doc_id (md5hex : String → String) (repo_name path : String) : String :=
  md5hex (repo_name ++ "_" ++ path)

/-- One step of `collection.upsert`: a record whose id already exists is
replaced in place, otherwise the record is appended. -/
def upsert1 (s : Store) (r : Record) : Store :=
  if s.any (fun x => x.id == r.id) then
    s.map (fun x => if x.id == r.id then r else x)
  else
    s ++ [r]

/-- `collection.upsert` over a batch of records. -/
def upsert (s : Store) (rs : List Record) : Store :=
  rs.foldl upsert1 s

/-- The accumulation loop of `VectorDBManager.store_repository`: for each
`(path, content)` pair, derive the doc id and request an embedding.  The
Python loop has no per-item handler, so the first `encode` failure raises
and aborts the whole call before `upsert` is reached. -/
def encodeBatch (md5hex : String → String) (encode : String → Option Embedding)
    (repo_name : String) : List (String × String) → Except String (List Record)
  | [] => Except.ok []
  | (path, content) :: rest =>
    match encode content with
    | none => Except.error path
    | some e =>
      match encodeBatch md5hex encode repo_name rest with
      | Except.error m => Except.error m
      | Except.ok rs =>
        Except.ok ({ id := generate_doc_id md5hex repo_name path, embedding := e,
                     repo := repo_name, path := path, content := content } :: rs)

/-- `VectorDBManager.store_repository`: build the batch, then `upsert` it
in one call.  An embedding failure propagates (`Except.error`) and the
store is left untouched. -/
def store_repository (md5hex : String → String) (encode : String → Option Embedding)
    (s : Store) (repo_name : String) (documents : List (String × String)) :
    Except String Store :=
  match encodeBatch md5hex encode repo_name documents with
  | Except.error m => Except.error m
  | Except.ok rs => Except.ok (upsert s rs)

/-- The comparison `collection.query` ranks by: ascending distance of the
record's embedding to the query embedding. -/
abbrev distRel (dist : Embedding → Embedding → ℚ) (qe : Embedding) (a b : Record) : Prop :=
  dist qe a.embedding ≤ dist qe b.embedding

/-- The eligibility restriction of `collection.query`: with a `where`
filter only records whose `repo` metadata equals the scope are eligible. -/
def eligibleRecords (s : Store) : Option String → Store
  | none => s
  | some rn => s.filter (fun r => r.repo == rn)

/-- `collection.query`: the eligible records, ranked by ascending distance
to the query embedding, truncated to `n_results`. -/
def queryStore (dist : Embedding → Embedding → ℚ) (s : Store) (qe : Embedding)
    (n_results : Nat) (filt : Option String) : List Record :=
  ((eligibleRecords s filt).insertionSort (distRel dist qe)).take n_results

/-- `VectorDBManager._format_results`: echo id, repo, path, content and the
distance of each hit. -/
def format_results (dist : Embedding → Embedding → ℚ) (qe : Embedding)
    (rs : List Record) : List SearchResult :=
  rs.map (fun r => { id := r.id, repo := r.repo, path := r.path,
                     content := r.content, distance := dist qe r.embedding })

/-- The scoping decision of `VectorDBManager.search_repository`: the Python
test `if repo_name:` is falsy both for `None` and for the empty string, in
which case the query is unscoped. -/
def scopeFilter : Option String → Option String
  | none => none
  | some rn => if rn == "" then none else some rn

/-- `VectorDBManager.search_repository`: embed the query (a failure raises
and propagates), query the collection with the optional `where` filter and
format the hits. -/
def search_repository (dist : Embedding → Embedding → ℚ)
    (embed : String → Option Embedding) (s : Store) (query : String)
    (repo_name : Option String) (n_results : Nat) : Except String (List SearchResult) :=
  match embed query with
  | none => Except.error "embedding failed"
  | some qe =>
    Except.ok (format_results dist qe (queryStore dist s qe n_results (scopeFilter repo_name)))

/-- `VectorDBManager.clear_repository`: delete every record whose `repo`
metadata equals `repo_name`. -/
def clear_repository (s : Store) (repo_name : String) : Store :=
  s.filter (fun r => r.repo != repo_name)

/-- Python dict assignment `documents[path] = content`: an existing key
keeps its position and gets the new value, a new key is appended. -/
def dictInsert (d : List (String × String)) (k v : String) : List (String × String) :=
  if d.any (fun kv => kv.1 == k) then
    d.map (fun kv => if kv.1 == k then (k, v) else kv)
  else
    d ++ [(k, v)]

/-- The document-building loop of `cli.index_repo`: each repository file
either decodes (`some text`, inserted into the dict) or raises on decode
(`none`, the item is skipped with a printed error and counted here). -/
def buildDocumentsAux (acc : List (String × String)) (skipped : Nat) :
    List (String × Option String) → List (String × String) × Nat
  | [] => (acc, skipped)
  | (path, od) :: rest =>
    match od with
    | some t => buildDocumentsAux (dictInsert acc path t) skipped rest
    | none => buildDocumentsAux acc (skipped + 1) rest

/-- The `documents` dict and the number of per-item decode errors of one
`cli.index_repo` run. -/
def build_documents (contents : List (String × Option String)) :
    List (String × String) × Nat :=
  buildDocumentsAux [] 0 contents

/-- `cli.index_repo` on a selected repository whose files decode to
`contents`: build the documents dict, then call `store_repository`.  Its
outer handler catches a raised exception, prints it and leaves the store
unchanged; the returned triple is (resulting store, decode-error count,
whether the run aborted with an error). -/
def index_repo (md5hex : String → String) (encode : String → Option Embedding)
    (s : Store) (repo_name : String) (contents : List (String × Option String)) :
    Store × Nat × Bool :=
  match store_repository md5hex encode s repo_name (build_documents contents).1 with
  | Except.ok s2 => (s2, (build_documents contents).2, false)
  | Except.error _ => (s, (build_documents contents).2, true)

/-- The batch of ids that one `store_repository` call derives from its
documents mapping. -/
def derivedIds (md5hex : String → String) (repo : String)
    (docs : List (String × String)) : List String :=
  docs.map (fun pc => generate_doc_id md5hex repo pc.1)

/-- A concrete distance capability for witnesses: the distance of a record
to the query is read off the record's first embedding coordinate. -/
def demoDist : Embedding → Embedding → ℚ := fun _ e => e.headD 0

/-- A concrete embedding capability for witnesses: every text embeds. -/
def demoEmbed : String → Option Embedding := fun _ => some [0]

/-- A concrete record of repository "demo" at a given distance. -/
def capRecord (i : Nat) (d : ℚ) : Record :=
  { id := "r" ++ toString i, embedding := [d], repo := "demo",
    path := "p" ++ toString i, content := "c" }

/-- A concrete ten-record store with known distances, three of them at
1/10, 5/10 and 9/10. -/
def capStore : Store :=
  [capRecord 1 (mkRat 5 10), capRecord 2 (mkRat 11 10), capRecord 3 (mkRat 1 10),
   capRecord 4 (mkRat 13 10), capRecord 5 (mkRat 9 10), capRecord 6 (mkRat 15 10),
   capRecord 7 (mkRat 12 10), capRecord 8 (mkRat 17 10), capRecord 9 (mkRat 14 10),
   capRecord 10 (mkRat 16 10)]

/-- A concrete two-repository store: repos "A" and "B", same path. -/
def abStore : Store :=
  [{ id := "idA", embedding := [1], repo := "A", path := "x.py", content := "ca" },
   { id := "idB", embedding := [2], repo := "B", path := "x.py", content := "cb" }]

/-- A concrete digest capability for witnesses (any injective stand-in for
the md5 hex digest works for the model). -/
def demoMd5 : String → String := fun s0 => s0

/-- A concrete embedding capability that fails on the text "bad", as an
embedding-model exception would. -/
def badEncode : String → Option Embedding :=
  fun t => if t == "bad" then none else some [1]

/-- Appending to a fixed string on the left is injective. -/
theorem string_append_left_cancel {a b c : String} (h : a ++ b = a ++ c) : b = c := by
  have hd := congrArg String.data h
  simp only [String.data_append] at hd
  exact String.ext (List.append_cancel_left hd)

/-- C6: for a fixed repository name, distinct paths yield distinct document
ids, with the md5 digest modelled as collision-free (injective) on input
strings. -/
theorem generate_doc_id_unique (md5hex : String → String)
    (hinj : Function.Injective md5hex) (r p1 p2 : String) (hp : p1 ≠ p2) :
    generate_doc_id md5hex r p1 ≠ generate_doc_id md5hex r p2 := by
  intro h
  exact hp (string_append_left_cancel (hinj h))

/-- Witness for C6 at a concrete digest function and concrete paths. -/
theorem generate_doc_id_unique_witness :
    generate_doc_id id "repo" "a.txt" ≠ generate_doc_id id "repo" "b.txt" :=
  generate_doc_id_unique id Function.injective_id "repo" "a.txt" "b.txt" (by decide)

/-- C9: the id input `repo_name + "_" + path` has no unambiguous separator,
so the distinct pairs ("a_b", "c") and ("a", "b_c") collide for every
digest function; consequently `store_repository` on repo "a" silently
replaces, via the upsert, a record that belongs to repo "a_b". -/
theorem doc_id_cross_repo_collision :
    (∀ md5hex : String → String,
       generate_doc_id md5hex "a_b" "c" = generate_doc_id md5hex "a" "b_c") ∧
    store_repository (fun s0 => s0) (fun _ => some [1])
        [{ id := "a_b_c", embedding := [1], repo := "a_b", path := "c", content := "old" }]
        "a" [("b_c", "new")] =
      Except.ok [{ id := "a_b_c", embedding := [1], repo := "a", path := "b_c",
                   content := "new" }] := by
  constructor
  · intro md5hex
    rfl
  · rfl

/-- C10: an empty-string scope is falsy in Python, so
`search_repository(query, "")` is exactly the unscoped query and may return
records of any repository. -/
theorem search_empty_scope_unscoped (dist : Embedding → Embedding → ℚ)
    (embed : String → Option Embedding) (s : Store) (q : String) (n : Nat) :
    search_repository dist embed s q (some "") n =
      search_repository dist embed s q none n := rfl

/-- On a store cleared of scope `rn`, a query filtered to `rn` finds no
eligible record. -/
theorem eligible_clear (s : Store) (rn : String) :
    eligibleRecords (clear_repository s rn) (some rn) = [] := by
  induction s with
  | nil => rfl
  | cons r rest ih =>
    simp only [clear_repository, eligibleRecords, List.filter_cons] at ih ⊢
    by_cases h : r.repo = rn
    · simp [h, ih]
    · simp [h, ih]

/-- C5: `clear_repository(repo_name)` removes every record whose repo tag
equals `repo_name`; on a store with no such record it is a no-op (never an
error, the model is total); and a subsequent query scoped to that name
returns the empty sequence. -/
theorem clear_repository_correct (dist : Embedding → Embedding → ℚ)
    (embed : String → Option Embedding) (s : Store) (rn q : String) (n : Nat)
    (hrn : rn ≠ "") (hq : (embed q).isSome = true) :
    (∀ r ∈ clear_repository s rn, r.repo ≠ rn) ∧
    ((∀ r ∈ s, r.repo ≠ rn) → clear_repository s rn = s) ∧
    search_repository dist embed (clear_repository s rn) q (some rn) n =
      Except.ok [] := by
  refine ⟨?_, ?_, ?_⟩
  · intro r hr
    have := (List.mem_filter.mp hr).2
    simpa using this
  · intro h
    apply List.filter_eq_self.mpr
    intro r hr
    simpa using h r hr
  · obtain ⟨qe, hqe⟩ := Option.isSome_iff_exists.mp hq
    have hsf : scopeFilter (some rn) = some rn := by
      simp [scopeFilter, hrn]
    simp [search_repository, hqe, queryStore, hsf, eligible_clear, format_results]

/-- Witness for C5 on a concrete one-record store tagged "demo". -/
theorem clear_repository_correct_witness :
    (∀ r ∈ clear_repository
        [{ id := "i", embedding := [1], repo := "demo", path := "a.txt",
           content := "hello world" }] "demo", r.repo ≠ "demo") ∧
    ((∀ r ∈ ([] : Store), r.repo ≠ "demo") →
       clear_repository ([] : Store) "demo" = []) ∧
    search_repository (fun _ _ => 0) (fun _ => some [1])
        (clear_repository
          [{ id := "i", embedding := [1], repo := "demo", path := "a.txt",
             content := "hello world" }] "demo") "hello" (some "demo") 5 =
      Except.ok [] :=
  ⟨(clear_repository_correct (fun _ _ => 0) (fun _ => some [1])
      [{ id := "i", embedding := [1], repo := "demo", path := "a.txt",
         content := "hello world" }] "demo" "hello" 5 (by decide) rfl).1,
   (clear_repository_correct (fun _ _ => 0) (fun _ => some [1])
      ([] : Store) "demo" "hello" 5 (by decide) rfl).2.1,
   (clear_repository_correct (fun _ _ => 0) (fun _ => some [1])
      [{ id := "i", embedding := [1], repo := "demo", path := "a.txt",
         content := "hello world" }] "demo" "hello" 5 (by decide) rfl).2.2⟩

/-- C8: `search_repository` surfaces an error exactly when the query text
cannot be embedded (so an embedding failure is never mapped to an empty
result), while a query over an empty index or an empty scope succeeds with
the empty sequence. -/
theorem search_error_contract (dist : Embedding → Embedding → ℚ)
    (embed : String → Option Embedding) (s : Store) (q : String)
    (rn : Option String) (n : Nat) :
    ((∃ e, search_repository dist embed s q rn n = Except.error e) ↔ embed q = none) ∧
    (embed q = none → ∀ l, search_repository dist embed s q rn n ≠ Except.ok l) ∧
    (∀ qe, embed q = some qe → eligibleRecords s (scopeFilter rn) = [] →
       search_repository dist embed s q rn n = Except.ok []) := by
  refine ⟨⟨?_, ?_⟩, ?_, ?_⟩
  · rintro ⟨e, he⟩
    cases h : embed q with
    | none => rfl
    | some qe => simp [search_repository, h] at he
  · intro h
    exact ⟨"embedding failed", by simp [search_repository, h]⟩
  · intro h l
    simp [search_repository, h]
  · intro qe hqe helig
    simp [search_repository, hqe, queryStore, helig, format_results]

/-- Witness for C8: an unembeddable query yields an error and an
embeddable query over the empty index yields the empty sequence. -/
theorem search_error_contract_witness :
    (∃ e, search_repository (fun _ _ => 0) (fun _ => none) ([] : Store) "q" none 5 =
       Except.error e) ∧
    search_repository (fun _ _ => 0) (fun _ => some [1]) ([] : Store) "q" none 5 =
      Except.ok [] :=
  ⟨(search_error_contract (fun _ _ => 0) (fun _ => none) ([] : Store) "q" none 5).1.mpr rfl,
   (search_error_contract (fun _ _ => 0) (fun _ => some [1]) ([] : Store) "q" none
      5).2.2 [1] rfl rfl⟩

/-- C1: a search scoped to a non-empty repository name only returns
results tagged with that name — in particular never a result of a second,
independently indexed repository — while the unscoped search ranks the
whole store purely by distance. -/
theorem search_scope_isolation (dist : Embedding → Embedding → ℚ)
    (embed : String → Option Embedding) (s : Store) (q rn b : String) (n : Nat)
    (l : List SearchResult) (hrn : rn ≠ "")
    (hok : search_repository dist embed s q (some rn) n = Except.ok l) :
    (∀ r ∈ l, r.repo = rn) ∧
    (b ≠ rn → ∀ r ∈ l, r.repo ≠ b) ∧
    (∀ qe, embed q = some qe →
       search_repository dist embed s q none n =
         Except.ok (format_results dist qe
           ((s.insertionSort (distRel dist qe)).take n))) := by
  have hsf : scopeFilter (some rn) = some rn := by simp [scopeFilter, hrn]
  have hmain : ∀ r ∈ l, r.repo = rn := by
    cases h : embed q with
    | none =>
      rw [search_repository, h] at hok
      exact absurd hok (by simp)
    | some qe =>
      rw [search_repository, h] at hok
      have hl : format_results dist qe (queryStore dist s qe n (scopeFilter (some rn))) = l := by
        simpa using hok
      intro r hr
      rw [← hl, format_results] at hr
      obtain ⟨rec, hrec, hfr⟩ := List.mem_map.mp hr
      rw [hsf, queryStore] at hrec
      have h1 := List.mem_of_mem_take hrec
      have h2 := (List.mem_insertionSort _).mp h1
      have h3 := (List.mem_filter.mp h2).2
      have hrepo : rec.repo = rn := by simpa using h3
      rw [← hfr]
      exact hrepo
  refine ⟨hmain, ?_, ?_⟩
  · intro hb r hr
    rw [hmain r hr]
    exact fun hc => hb hc.symm
  · intro qe hqe
    rw [search_repository, hqe]
    rfl

/-- Witness for C1 on a store holding repositories "A" and "B" with the
same file path, searched with scope "A". -/
theorem search_scope_isolation_witness :
    (∀ r ∈ format_results demoDist [0]
        (queryStore demoDist abStore [0] 5 (some "A")), r.repo = "A") ∧
    ("B" ≠ "A" → ∀ r ∈ format_results demoDist [0]
        (queryStore demoDist abStore [0] 5 (some "A")), r.repo ≠ "B") ∧
    (∀ qe, demoEmbed "q" = some qe →
       search_repository demoDist demoEmbed abStore "q" none 5 =
         Except.ok (format_results demoDist qe
           ((abStore.insertionSort (distRel demoDist qe)).take 5))) :=
  search_scope_isolation demoDist demoEmbed abStore "q" "A" "B" 5
    (format_results demoDist [0] (queryStore demoDist abStore [0] 5 (some "A")))
    (by decide) rfl

/-- C3: a successful search returns exactly `min limit eligible-count`
results (so at most the limit, and exactly the limit when enough records
match), ordered by ascending distance. -/
theorem search_result_cap_and_order (dist : Embedding → Embedding → ℚ)
    (embed : String → Option Embedding) (s : Store) (q : String)
    (rn : Option String) (n : Nat) (l : List SearchResult)
    (hok : search_repository dist embed s q rn n = Except.ok l) :
    l.length = min n (eligibleRecords s (scopeFilter rn)).length ∧
    List.Sorted (fun a b : SearchResult => a.distance ≤ b.distance) l := by
  cases h : embed q with
  | none =>
    rw [search_repository, h] at hok
    exact absurd hok (by simp)
  | some qe =>
    rw [search_repository, h] at hok
    have hl : format_results dist qe (queryStore dist s qe n (scopeFilter rn)) = l := by
      simpa using hok
    rw [← hl]
    constructor
    · have hperm := (List.perm_insertionSort (distRel dist qe)
        (eligibleRecords s (scopeFilter rn))).length_eq
      simp [format_results, queryStore, List.length_take, hperm]
    · have hs : List.Sorted (distRel dist qe)
          ((eligibleRecords s (scopeFilter rn)).insertionSort (distRel dist qe)) :=
        @List.sorted_insertionSort Record (distRel dist qe) _
          ⟨fun a b => le_total _ _⟩ ⟨fun a b c hab hbc => le_trans hab hbc⟩ _
      have ht : List.Pairwise (distRel dist qe)
          (((eligibleRecords s (scopeFilter rn)).insertionSort (distRel dist qe)).take n) :=
        List.Pairwise.sublist (List.take_sublist n _) hs
      rw [format_results, queryStore, List.Sorted]
      exact List.pairwise_map.mpr ht

/-- Witness for C3: over a ten-record store a search with limit 3 returns
exactly three results, the records at distances 1/10, 5/10 and 9/10 in
ascending order. -/
theorem search_result_cap_and_order_witness :
    (format_results demoDist [0]
       [capRecord 3 (mkRat 1 10), capRecord 1 (mkRat 5 10),
        capRecord 5 (mkRat 9 10)]).length =
      min 3 (eligibleRecords capStore (scopeFilter none)).length ∧
    List.Sorted (fun a b : SearchResult => a.distance ≤ b.distance)
      (format_results demoDist [0]
        [capRecord 3 (mkRat 1 10), capRecord 1 (mkRat 5 10),
         capRecord 5 (mkRat 9 10)]) :=
  search_result_cap_and_order demoDist demoEmbed capStore "q" none 3
    (format_results demoDist [0]
      [capRecord 3 (mkRat 1 10), capRecord 1 (mkRat 5 10),
       capRecord 5 (mkRat 9 10)])
    (by rfl)

/-- Every element of `upsert1 s r` comes from `s` or is `r`. -/
theorem mem_upsert1 {s : Store} {r x : Record} (hx : x ∈ upsert1 s r) :
    x ∈ s ∨ x = r := by
  unfold upsert1 at hx
  by_cases hany : s.any (fun y => y.id == r.id) = true
  · rw [if_pos hany] at hx
    obtain ⟨y, hy, hxy⟩ := List.mem_map.mp hx
    by_cases h : y.id = r.id
    · right
      rw [← hxy]
      simp [h]
    · left
      have : (if (y.id == r.id) = true then r else y) = y := by simp [h]
      rw [this] at hxy
      rw [← hxy]
      exact hy
  · rw [if_neg hany] at hx
    rcases List.mem_append.mp hx with h | h
    · exact Or.inl h
    · exact Or.inr (by simpa using h)

/-- After `upsert1 s r`, every element carrying the id of `r` is `r`. -/
theorem upsert1_settled {s : Store} {r : Record} :
    ∀ x ∈ upsert1 s r, x.id = r.id → x = r := by
  intro x hx hid
  unfold upsert1 at hx
  by_cases hany : s.any (fun y => y.id == r.id) = true
  · rw [if_pos hany] at hx
    obtain ⟨y, hy, hxy⟩ := List.mem_map.mp hx
    by_cases h : y.id = r.id
    · rw [← hxy]
      simp [h]
    · exfalso
      have : (if (y.id == r.id) = true then r else y) = y := by simp [h]
      rw [this] at hxy
      exact h (hxy ▸ hid)
  · rw [if_neg hany] at hx
    rcases List.mem_append.mp hx with hmem | hmem
    · exact absurd (List.any_eq_true.mpr ⟨x, hmem, by simp [hid]⟩) hany
    · simpa using hmem

/-- After `upsert1 s r`, the id of `r` is present. -/
theorem upsert1_present {s : Store} (r : Record) :
    (upsert1 s r).any (fun x => x.id == r.id) = true := by
  apply List.any_eq_true.mpr
  refine ⟨r, ?_, by simp⟩
  unfold upsert1
  by_cases hany : s.any (fun y => y.id == r.id) = true
  · rw [if_pos hany]
    obtain ⟨y, hy, hyid⟩ := List.any_eq_true.mp hany
    exact List.mem_map.mpr ⟨y, hy, by simp [hyid]⟩
  · rw [if_neg hany]
    simp

/-- `upsert1` keeps every already-present id present. -/
theorem upsert1_present_mono {s : Store} {i : String}
    (h : s.any (fun x => x.id == i) = true) (r : Record) :
    (upsert1 s r).any (fun x => x.id == i) = true := by
  obtain ⟨y, hy, hyi⟩ := List.any_eq_true.mp h
  apply List.any_eq_true.mpr
  unfold upsert1
  by_cases hany : s.any (fun z => z.id == r.id) = true
  · rw [if_pos hany]
    by_cases hyr : y.id = r.id
    · refine ⟨r, List.mem_map.mpr ⟨y, hy, by simp [hyr]⟩, ?_⟩
      have hyi' : y.id = i := by simpa using hyi
      simp [← hyr, hyi']
    · exact ⟨y, List.mem_map.mpr ⟨y, hy, by simp [hyr]⟩, hyi⟩
  · rw [if_neg hany]
    exact ⟨y, List.mem_append.mpr (Or.inl hy), hyi⟩

/-- `upsert1` with a record of a different id keeps a settled id settled. -/
theorem upsert1_settled_mono {s : Store} {t r : Record} (hne : t.id ≠ r.id)
    (h : ∀ x ∈ s, x.id = t.id → x = t) :
    ∀ x ∈ upsert1 s r, x.id = t.id → x = t := by
  intro x hx hid
  rcases mem_upsert1 hx with hmem | rfl
  · exact h x hmem hid
  · exact absurd hid.symm hne

/-- A whole `upsert` batch keeps an already-present id present. -/
theorem upsert_present_mono {i : String} :
    ∀ (rs : List Record) (s : Store), s.any (fun x => x.id == i) = true →
      (upsert s rs).any (fun x => x.id == i) = true := by
  intro rs
  induction rs with
  | nil => exact fun s h => h
  | cons r rest ih =>
    intro s h
    exact ih (upsert1 s r) (upsert1_present_mono h r)

/-- A whole `upsert` batch of records with other ids keeps a settled id
settled. -/
theorem upsert_settled_mono {t : Record} :
    ∀ (rs : List Record) (s : Store), (∀ r ∈ rs, r.id ≠ t.id) →
      (∀ x ∈ s, x.id = t.id → x = t) →
      ∀ x ∈ upsert s rs, x.id = t.id → x = t := by
  intro rs
  induction rs with
  | nil => exact fun s _ h => h
  | cons r rest ih =>
    intro s hne h
    exact ih (upsert1 s r)
      (fun r' hr' => hne r' (List.mem_cons_of_mem r hr'))
      (upsert1_settled_mono (hne r (List.mem_cons_self r rest)).symm h)

/-- After upserting a batch with pairwise distinct ids, every batch record
is present, and it is the only record carrying its id. -/
theorem upsert_settles :
    ∀ (rs : List Record), (rs.map (fun r => r.id)).Nodup →
      ∀ (s : Store), ∀ r ∈ rs,
        (upsert s rs).any (fun x => x.id == r.id) = true ∧
        ∀ x ∈ upsert s rs, x.id = r.id → x = r := by
  intro rs
  induction rs with
  | nil => intro _ s r hr; exact absurd hr (List.not_mem_nil r)
  | cons r0 rest ih =>
    intro hnd s r hr
    rw [List.map_cons, List.nodup_cons] at hnd
    obtain ⟨hnotin, hndrest⟩ := hnd
    rcases List.mem_cons.mp hr with rfl | hmem
    · constructor
      · exact upsert_present_mono rest (upsert1 s r) (upsert1_present r)
      · apply upsert_settled_mono rest (upsert1 s r) ?_ upsert1_settled
        intro r' hr' hc
        apply hnotin
        rw [← hc]
        exact List.mem_map_of_mem (fun z => z.id) hr'
    · exact ih hndrest (upsert1 s r0) r hmem

/-- Upserting a record that is already present and settled is a no-op. -/
theorem upsert1_id {s : Store} {r : Record}
    (hp : s.any (fun x => x.id == r.id) = true)
    (hs : ∀ x ∈ s, x.id = r.id → x = r) : upsert1 s r = s := by
  unfold upsert1
  rw [if_pos hp]
  have hmap : ∀ x ∈ s, (if (x.id == r.id) = true then r else x) = id x := by
    intro x hx
    by_cases h : x.id = r.id
    · have hxr := hs x hx h
      subst hxr
      simp
    · simp [h]
  rw [List.map_congr_left hmap, List.map_id]

/-- Upserting a batch whose records are all present and settled is a
no-op. -/
theorem upsert_self :
    ∀ (rs : List Record) (s : Store),
      (∀ r ∈ rs, s.any (fun x => x.id == r.id) = true ∧
        ∀ x ∈ s, x.id = r.id → x = r) →
      upsert s rs = s := by
  intro rs
  induction rs with
  | nil => intro s _; rfl
  | cons r rest ih =>
    intro s h
    have h0 := h r (List.mem_cons_self r rest)
    have heq : upsert1 s r = s := upsert1_id h0.1 h0.2
    show upsert (upsert1 s r) rest = s
    rw [heq]
    exact ih s (fun r' hr' => h r' (List.mem_cons_of_mem r hr'))

/-- Upserting the same batch twice equals upserting it once, for a batch
with pairwise distinct ids. -/
theorem upsert_idem {rs : List Record} (hnd : (rs.map (fun r => r.id)).Nodup)
    (s : Store) : upsert (upsert s rs) rs = upsert s rs :=
  upsert_self rs (upsert s rs) (fun r hr => upsert_settles rs hnd s r hr)

/-- A successful `encodeBatch` derives exactly the ids of its documents,
in order. -/
theorem encodeBatch_ok_ids {md5hex : String → String}
    {encode : String → Option Embedding} {repo : String} :
    ∀ {docs : List (String × String)} {rs : List Record},
      encodeBatch md5hex encode repo docs = Except.ok rs →
      rs.map (fun r => r.id) = docs.map (fun pc => generate_doc_id md5hex repo pc.1) := by
  intro docs
  induction docs with
  | nil =>
    intro rs h
    simp only [encodeBatch] at h
    have : ([] : List Record) = rs := by simpa using h
    rw [← this]
    rfl
  | cons pc rest ih =>
    intro rs h
    obtain ⟨path, content⟩ := pc
    simp only [encodeBatch] at h
    cases he : encode content with
    | none => rw [he] at h; exact absurd h (by simp)
    | some e =>
      rw [he] at h
      cases hr : encodeBatch md5hex encode repo rest with
      | error m => rw [hr] at h; exact absurd h (by simp)
      | ok rs0 =>
        rw [hr] at h
        have hrs : (⟨generate_doc_id md5hex repo path, e, repo, path, content⟩ : Record)
            :: rs0 = rs := by
          simpa using h
        rw [← hrs]
        simp [ih hr]

/-- C2: re-indexing the same mapping twice leaves the store exactly where
one indexing run left it — a record whose id already exists is replaced,
not duplicated — assuming the derived ids of the mapping are pairwise
distinct (collision-freedom of the digest, cf. the uniqueness property). -/
theorem store_repository_idempotent (md5hex : String → String)
    (encode : String → Option Embedding) (s s1 : Store) (repo : String)
    (docs : List (String × String))
    (hnd : (docs.map (fun pc => generate_doc_id md5hex repo pc.1)).Nodup)
    (hok : store_repository md5hex encode s repo docs = Except.ok s1) :
    store_repository md5hex encode s1 repo docs = Except.ok s1 := by
  simp only [store_repository] at hok ⊢
  cases h : encodeBatch md5hex encode repo docs with
  | error m => rw [h] at hok; exact absurd hok (by simp)
  | ok rs =>
    rw [h] at hok
    have hs1 : upsert s rs = s1 := by simpa using hok
    have hnd' : (rs.map (fun r => r.id)).Nodup := by
      rw [encodeBatch_ok_ids h]
      exact hnd
    rw [← hs1]
    simp [upsert_idem hnd' s]

/-- Witness for C2 on a concrete two-file mapping. -/
theorem store_repository_idempotent_witness :
    store_repository demoMd5 demoEmbed
      [{ id := "r_a", embedding := [0], repo := "r", path := "a", content := "x" },
       { id := "r_b", embedding := [0], repo := "r", path := "b", content := "y" }]
      "r" [("a", "x"), ("b", "y")] =
    Except.ok
      [{ id := "r_a", embedding := [0], repo := "r", path := "a", content := "x" },
       { id := "r_b", embedding := [0], repo := "r", path := "b", content := "y" }] :=
  store_repository_idempotent demoMd5 demoEmbed []
    [{ id := "r_a", embedding := [0], repo := "r", path := "a", content := "x" },
     { id := "r_b", embedding := [0], repo := "r", path := "b", content := "y" }]
    "r" [("a", "x"), ("b", "y")] (by decide) rfl

/-- Replacing all occurrences of an id that lies in `I` does not change
the records whose ids are outside `I`. -/
theorem filter_replace {I : List String} {r : Record} (hr : I.contains r.id = true) :
    ∀ s : Store,
      (s.map (fun x => if x.id == r.id then r else x)).filter
          (fun x => !(I.contains x.id)) =
        s.filter (fun x => !(I.contains x.id)) := by
  intro s
  induction s with
  | nil => rfl
  | cons x xs ih =>
    simp only [List.map_cons, List.filter_cons]
    simp at ih
    by_cases h : x.id = r.id
    · have hr' : r.id ∈ I := by simpa using hr
      simp [h, hr', ih]
    · simp [h, ih]

/-- `upsert1` with a record whose id lies in `I` does not change the
records whose ids are outside `I`. -/
theorem upsert1_frame {I : List String} {r : Record} (hr : I.contains r.id = true)
    (s : Store) :
    (upsert1 s r).filter (fun x => !(I.contains x.id)) =
      s.filter (fun x => !(I.contains x.id)) := by
  unfold upsert1
  by_cases hany : s.any (fun x => x.id == r.id) = true
  · rw [if_pos hany]
    exact filter_replace hr s
  · rw [if_neg hany, List.filter_append]
    have hr' : r.id ∈ I := by simpa using hr
    simp [hr']

/-- An `upsert` batch whose ids all lie in `I` does not change the records
whose ids are outside `I`. -/
theorem upsert_frame {I : List String} :
    ∀ (rs : List Record), (∀ r ∈ rs, I.contains r.id = true) →
      ∀ s : Store,
        (upsert s rs).filter (fun x => !(I.contains x.id)) =
          s.filter (fun x => !(I.contains x.id)) := by
  intro rs
  induction rs with
  | nil => intro _ s; rfl
  | cons r rest ih =>
    intro h s
    show (upsert (upsert1 s r) rest).filter (fun x => !(I.contains x.id)) = _
    rw [ih (fun r' hr' => h r' (List.mem_cons_of_mem r hr')) (upsert1 s r)]
    exact upsert1_frame (h r (List.mem_cons_self r rest)) s

/-- C7: a successful `store_repository` call modifies only records whose
ids are among the ids derived from the given mapping; every record outside
that id set — in particular the stale record of a path removed from the
repository — is left in place unchanged. -/
theorem store_repository_frame (md5hex : String → String)
    (encode : String → Option Embedding) (s s1 : Store) (repo : String)
    (docs : List (String × String))
    (hok : store_repository md5hex encode s repo docs = Except.ok s1) :
    s1.filter (fun x => !((derivedIds md5hex repo docs).contains x.id)) =
      s.filter (fun x => !((derivedIds md5hex repo docs).contains x.id)) ∧
    ∀ x ∈ s, (derivedIds md5hex repo docs).contains x.id = false → x ∈ s1 := by
  simp only [store_repository] at hok
  cases h : encodeBatch md5hex encode repo docs with
  | error m => rw [h] at hok; exact absurd hok (by simp)
  | ok rs =>
    rw [h] at hok
    have hs1 : upsert s rs = s1 := by simpa using hok
    have hin : ∀ r ∈ rs, (derivedIds md5hex repo docs).contains r.id = true := by
      intro r hr
      have hmem : r.id ∈ derivedIds md5hex repo docs := by
        rw [derivedIds, ← encodeBatch_ok_ids h]
        exact List.mem_map_of_mem (fun z => z.id) hr
      simpa using hmem
    have hfr := upsert_frame rs hin s
    rw [hs1] at hfr
    refine ⟨hfr, ?_⟩
    intro x hx hcon
    have hxf : x ∈ s.filter (fun y => !((derivedIds md5hex repo docs).contains y.id)) :=
      List.mem_filter.mpr ⟨hx, by simpa using hcon⟩
    rw [← hfr] at hxf
    exact (List.mem_filter.mp hxf).1

/-- Witness for C7: re-indexing repo "r" with only path "a" leaves the
stale record of the removed path "old" untouched. -/
theorem store_repository_frame_witness :
    ([{ id := "r_old", embedding := [0], repo := "r", path := "old", content := "v" },
      { id := "r_a", embedding := [0], repo := "r", path := "a", content := "x" }]
        : Store).filter
        (fun x => !((derivedIds demoMd5 "r" [("a", "x")]).contains x.id)) =
      ([{ id := "r_old", embedding := [0], repo := "r", path := "old", content := "v" }]
        : Store).filter
        (fun x => !((derivedIds demoMd5 "r" [("a", "x")]).contains x.id)) ∧
    ∀ x ∈ ([{ id := "r_old", embedding := [0], repo := "r", path := "old",
              content := "v" }] : Store),
      (derivedIds demoMd5 "r" [("a", "x")]).contains x.id = false →
        x ∈ ([{ id := "r_old", embedding := [0], repo := "r", path := "old",
                content := "v" },
              { id := "r_a", embedding := [0], repo := "r", path := "a",
                content := "x" }] : Store) :=
  store_repository_frame demoMd5 demoEmbed
    [{ id := "r_old", embedding := [0], repo := "r", path := "old", content := "v" }]
    [{ id := "r_old", embedding := [0], repo := "r", path := "old", content := "v" },
     { id := "r_a", embedding := [0], repo := "r", path := "a", content := "x" }]
    "r" [("a", "x")] rfl

/-- A documents list all of whose contents embed successfully yields a
successful `encodeBatch`. -/
theorem encodeBatch_ok_of_forall {md5hex : String → String}
    {encode : String → Option Embedding} {repo : String} :
    ∀ (docs : List (String × String)), (∀ pc ∈ docs, (encode pc.2).isSome = true) →
      ∃ rs, encodeBatch md5hex encode repo docs = Except.ok rs := by
  intro docs
  induction docs with
  | nil => exact fun _ => ⟨[], rfl⟩
  | cons pc rest ih =>
    intro h
    obtain ⟨path, content⟩ := pc
    obtain ⟨e, he⟩ := Option.isSome_iff_exists.mp (h (path, content) (List.mem_cons_self _ _))
    obtain ⟨rs0, hrs0⟩ := ih (fun pc' hpc' => h pc' (List.mem_cons_of_mem _ hpc'))
    refine ⟨⟨generate_doc_id md5hex repo path, e, repo, path, content⟩ :: rs0, ?_⟩
    simp only [encodeBatch, he, hrs0]

/-- A documents list one of whose contents fails to embed makes
`encodeBatch` raise. -/
theorem encodeBatch_error_of_exists {md5hex : String → String}
    {encode : String → Option Embedding} {repo : String} :
    ∀ (docs : List (String × String)), (∃ pc ∈ docs, encode pc.2 = none) →
      ∃ m, encodeBatch md5hex encode repo docs = Except.error m := by
  intro docs
  induction docs with
  | nil =>
    rintro ⟨pc, hpc, _⟩
    exact absurd hpc (List.not_mem_nil pc)
  | cons pc0 rest ih =>
    rintro ⟨pc, hpc, hnone⟩
    obtain ⟨path, content⟩ := pc0
    rcases List.mem_cons.mp hpc with rfl | hmem
    · exact ⟨path, by simp only [encodeBatch, hnone]⟩
    · cases he : encode content with
      | none => exact ⟨path, by simp only [encodeBatch, he]⟩
      | some e =>
        obtain ⟨m, hm⟩ := ih ⟨pc, hmem, hnone⟩
        exact ⟨m, by simp only [encodeBatch, he, hm]⟩

/-- The decode-error counter of the document-building loop counts exactly
the undecodable items. -/
theorem buildDocumentsAux_count :
    ∀ (contents : List (String × Option String)) (acc : List (String × String)) (k : Nat),
      (buildDocumentsAux acc k contents).2 =
        k + (contents.filter (fun pc => pc.2.isNone)).length := by
  intro contents
  induction contents with
  | nil => intro acc k; simp [buildDocumentsAux]
  | cons pc rest ih =>
    intro acc k
    obtain ⟨path, od⟩ := pc
    cases od with
    | some t => simp [buildDocumentsAux, ih]
    | none =>
      simp only [buildDocumentsAux, ih, List.filter_cons]
      simp
      omega

/-- C4 (amended): an undecodable item is skipped with a per-item error
message and counted while the run continues; but an item whose embedding
fails aborts the entire store call — no record of the run is written, the
store is left unchanged and the error is caught by the outer CLI
handler. -/
theorem index_repo_error_recovery (md5hex : String → String)
    (encode : String → Option Embedding) (s : Store) (repo : String)
    (contents : List (String × Option String)) :
    (index_repo md5hex encode s repo contents).2.1 =
      (contents.filter (fun pc => pc.2.isNone)).length ∧
    ((∀ pc ∈ (build_documents contents).1, (encode pc.2).isSome = true) →
       (index_repo md5hex encode s repo contents).2.2 = false ∧
       ∃ rs, encodeBatch md5hex encode repo (build_documents contents).1 = Except.ok rs ∧
         (index_repo md5hex encode s repo contents).1 = upsert s rs) ∧
    ((∃ pc ∈ (build_documents contents).1, encode pc.2 = none) →
       (index_repo md5hex encode s repo contents).2.2 = true ∧
       (index_repo md5hex encode s repo contents).1 = s) := by
  refine ⟨?_, ?_, ?_⟩
  · cases hsr : store_repository md5hex encode s repo (build_documents contents).1 with
    | ok s2 =>
      simp only [index_repo, hsr]
      simp [build_documents, buildDocumentsAux_count]
    | error m =>
      simp only [index_repo, hsr]
      simp [build_documents, buildDocumentsAux_count]
  · intro h
    obtain ⟨rs, hrs⟩ :=
      @encodeBatch_ok_of_forall md5hex encode repo (build_documents contents).1 h
    have hsr : store_repository md5hex encode s repo (build_documents contents).1 =
        Except.ok (upsert s rs) := by
      simp only [store_repository, hrs]
    exact ⟨by simp [index_repo, hsr], rs, hrs, by simp [index_repo, hsr]⟩
  · intro h
    obtain ⟨m, hm⟩ :=
      @encodeBatch_error_of_exists md5hex encode repo (build_documents contents).1 h
    have hsr : store_repository md5hex encode s repo (build_documents contents).1 =
        Except.error m := by
      simp only [store_repository, hm]
    exact ⟨by simp [index_repo, hsr], by simp [index_repo, hsr]⟩

/-- Witness for C4: one undecodable file is skipped and counted while the
decodable file is processed and the run does not abort. -/
theorem index_repo_error_recovery_witness :
    (index_repo demoMd5 demoEmbed [] "r"
       [("a.txt", none), ("b.txt", some "good")]).2.1 = 1 ∧
    (index_repo demoMd5 demoEmbed [] "r"
       [("a.txt", none), ("b.txt", some "good")]).2.2 = false :=
  ⟨by
    have h := (index_repo_error_recovery demoMd5 demoEmbed [] "r"
      [("a.txt", none), ("b.txt", some "good")]).1
    simpa using h,
   ((index_repo_error_recovery demoMd5 demoEmbed [] "r"
      [("a.txt", none), ("b.txt", some "good")]).2.1 (by decide)).1⟩

/-- C4 counterexample: an embedding failure on the first item does not
merely skip that item — the whole store call raises, the outer handler
catches it, the run is aborted and the second item, although decodable and
embeddable, is not indexed (the store stays empty). -/
theorem index_repo_embed_failure_aborts :
    index_repo demoMd5 badEncode [] "r"
      [("a.txt", some "bad"), ("b.txt", some "good")] = ([], 0, true) := rfl

end GHVC
